import Mathlib

/-!
Verification of the diff parsing/patching engine and the rollback store of the
obsidian-mcp-plugin repository.

Strings are modelled as lists of characters (`Str`).  The functions below are
shallow embeddings of the TypeScript sources:

* `applyDiff`, `applyDiffCore`, `applyGo`, `hunkBlocks`, `stripAB`,
  `stripFences`, … embed `src/vault/diff-edit.ts` (`applyDiff` and the
  registered `diff-edit-file` handler);
* `saveRollback`, `restoreRollback`, `diffEditTool` embed the rollback store
  of `src/utils/helpers.ts` and the orchestration in
  `registerDiffEditHandler`;
* `createPatch` is modelled from the spec (see its doc comment): the real
  `createPatch` comes from the external npm `diff` package and is not part of
  the repository sources.
-/

/-- Strings as lists of characters. -/
abbrev Str := List Char

/-- Conversion from Lean string literals. -/
def ofString (s : String) : Str := s.data

/-- JavaScript regex whitespace class `\s` restricted to the characters that
can actually appear here (space, tab, line feed, carriage return, vertical
tab, form feed). -/
def isWS (c : Char) : Bool :=
  c == ' ' || c == '\t' || c == '\n' || c == '\r' || c == '\x0b' || c == '\x0c'

/-- `originalContent.replace(/\r\n/g, "\n")` — CRLF to LF normalization
(`diff-edit.ts` line 56); the regex engine scans left to right replacing
non-overlapping `\r\n` pairs. -/
def normalizeCRLF : Str → Str
  | [] => []
  | [c] => [c]
  | c :: d :: rest =>
    if c = '\r' ∧ d = '\n' then '\n' :: normalizeCRLF rest
    else c :: normalizeCRLF (d :: rest)

/-- Splitting on LF. -/
def splitNL : Str → List Str
  | [] => [[]]
  | c :: rest =>
    if c = '\n' then [] :: splitNL rest
    else
      match splitNL rest with
      | [] => [[c]]
      | l :: ls => (c :: l) :: ls

/-- `clean.split(/\r?\n/)` (`diff-edit.ts` line 23).  Splitting on `\r?\n`
scans left to right for separators that are either a `\r\n` pair or a bare
`\n`; this is the same segmentation as first rewriting every (left-to-right,
non-overlapping) `\r\n` pair to `\n` and then splitting on `\n`: the
separator occurrences correspond one to one and all other characters —
including lone `\r`s, which `\r?\n` never consumes — are untouched. -/
def splitLinesRN (s : Str) : List Str := splitNL (normalizeCRLF s)

/-- `lines.join("\n")`. -/
def joinNL : List Str → Str
  | [] => []
  | [l] => l
  | l :: ls => l ++ '\n' :: joinNL ls

/-- First index at which `nd` occurs as a contiguous substring of `hay` —
JavaScript `hay.indexOf(nd)`, with `none` for `-1`. -/
def strIndexOf (hay nd : Str) : Option Nat :=
  if nd.isPrefixOf hay then some 0
  else
    match hay with
    | [] => none
    | _ :: t => (strIndexOf t nd).map fun i => i + 1

/-- `nd` occurs in `hay` at position `i`. -/
def occursAtB (nd hay : Str) (i : Nat) : Bool :=
  nd.isPrefixOf (hay.drop i)

/-- Number of positions of `hay` at which `nd` occurs. -/
def occCount (hay nd : Str) : Nat :=
  ((List.range (hay.length + 1)).filter fun i => occursAtB nd hay i).length

/-- Does `hay` contain `nd` as a substring? -/
def containsSub (hay nd : Str) : Bool :=
  (strIndexOf hay nd).isSome

/-- `p.replace(/^([ab]\/)*/, "")` (`diff-edit.ts` line 30): removes every
leading `a/` or `b/` segment.  (The source comment says "Only remove one
leading a/ or b/ prefix", but the regex group is starred.) -/
def stripAB : Str → Str
  | 'a' :: '/' :: rest => stripAB rest
  | 'b' :: '/' :: rest => stripAB rest
  | p => p

/-- Scanner for `udiff.replace(/^```diff\s*|```$/gm, "")` (`diff-edit.ts`
line 22).  `pend` counts characters still to be dropped blindly from a match
of the literal part, `skipWS` records that the `\s*` of the first alternative
is still being consumed, `atLS` whether the current position is a line start
(`^` with the `m` flag). -/
def sfGo (pend : Nat) (skipWS atLS : Bool) : Str → Str
  | [] => []
  | c :: rest =>
    match pend with
    | n + 1 => sfGo n skipWS (c == '\n') rest
    | 0 =>
      if skipWS && isWS c then sfGo 0 true (c == '\n') rest
      else if atLS && (ofString ("```diff")).isPrefixOf (c :: rest) then
        sfGo 6 true false rest
      else if (ofString ("```")).isPrefixOf (c :: rest)
          && (match (c :: rest).drop 3 with
              | [] => true
              | '\n' :: _ => true
              | _ => false) then
        sfGo 2 false false rest
      else c :: sfGo 0 false (c == '\n') rest

/-- Fence stripping: `udiff.replace(/^```diff\s*|```$/gm, "")`. -/
def stripFences (s : Str) : Str := sfGo 0 false true s

instance {ε α : Type} [DecidableEq ε] [DecidableEq α] :
    DecidableEq (Except ε α) := fun x y =>
  match x, y with
  | .ok a, .ok b =>
    if h : a = b then isTrue (by rw [h])
    else isFalse (by intro hc; cases hc; exact h rfl)
  | .error a, .error b =>
    if h : a = b then isTrue (by rw [h])
    else isFalse (by intro hc; cases hc; exact h rfl)
  | .ok _, .error _ => isFalse (by intro hc; cases hc)
  | .error _, .ok _ => isFalse (by intro hc; cases hc)

/-- Typed rendering of the error messages thrown by `applyDiff`. -/
inductive DiffError where
  | malformedHeader : DiffError
  | pathsDiffer (oldFile newFile : Str) : DiffError
  | pathTargetMismatch (oldFilePath path : Str) : DiffError
  | multiFile : DiffError
  | hunkParse (header : Str) : DiffError
  | hunkApply (searchBlock : Str) : DiffError
deriving DecidableEq, Repr

/-- One pass over a hunk body building the context+removed (search) and
context+added (replace) line lists (`diff-edit.ts` lines 74-93). -/
def classifyLines : List Str → List Str × List Str
  | [] => ([], [])
  | h :: t =>
    let p := classifyLines t
    match h with
    | [] => p
    | c :: cs =>
      if c == ' ' then (cs :: p.1, cs :: p.2)
      else if c == '-' then (cs :: p.1, p.2)
      else if c == '+' then (p.1, cs :: p.2)
      else p

/-- The trailing-newline condition of `diff-edit.ts` lines 97-104: the last
hunk line is completely empty or a lone space. -/
def trailingNL (hl : List Str) : Bool :=
  match hl.getLast? with
  | some [] => true
  | some (' ' :: []) => true
  | _ => false

/-- Search and replace blocks derived from a hunk body
(`diff-edit.ts` lines 74-104). -/
def hunkBlocks (hl : List Str) : Str × Str :=
  let p := classifyLines hl
  if trailingNL hl then (joinNL p.1 ++ ['\n'], joinNL p.2 ++ ['\n'])
  else (joinNL p.1, joinNL p.2)

/-- Locate and substitute one hunk (`diff-edit.ts` lines 105-112). -/
def applyHunk (hl : List Str) (u : Str) : Except DiffError Str :=
  let sb := (hunkBlocks hl).1
  match strIndexOf u sb with
  | none => .error (.hunkApply sb)
  | some i => .ok (u.take i ++ (hunkBlocks hl).2 ++ u.drop (i + sb.length))

/-- `/^@@.*@@/.test(header)` — starts with `@@` and a second `@@` occurs
later in the line. -/
def isHunkHeader (l : Str) : Bool :=
  (ofString ("@@")).isPrefixOf l && containsSub (l.drop 2) (ofString ("@@"))

/-- The hunk-collection loop boundary (`diff-edit.ts` lines 66-70): a line
starting with `@@` or `---`. -/
def isBoundary (l : Str) : Bool :=
  (ofString ("@@")).isPrefixOf l || (ofString ("---")).isPrefixOf l

/-- `header.trim() === ""`. -/
def isBlank (l : Str) : Bool := l.all isWS

/-- The hunk loop of `diff-edit.ts` lines 57-113 as a single pass over the
remaining diff lines.  `none` means a hunk header is expected next (the top
of the outer `while`); `some acc` means hunk body lines are being collected
(the inner `while`), with `acc` holding them in reverse.  On a boundary line
or at the end of input the collected hunk is applied, exactly where the
source leaves its inner loop. -/
def applyGo : List Str → Option (List Str) → Str → Except DiffError Str
  | [], none, u => .ok u
  | [], some acc, u => applyHunk acc.reverse u
  | l :: ls, none, u =>
    if isHunkHeader l then applyGo ls (some []) u
    else if isBlank l then applyGo ls none u
    else .error (.hunkParse l)
  | l :: ls, some acc, u =>
    if isBoundary l then
      match applyHunk acc.reverse u with
      | .error e => .error e
      | .ok u' =>
        if isHunkHeader l then applyGo ls (some []) u'
        else if isBlank l then applyGo ls none u'
        else .error (.hunkParse l)
    else applyGo ls (some (l :: acc)) u

/-- `/^\+\+\+\s/.test(line)`. -/
def plusHeaderOk : Str → Bool
  | '+' :: '+' :: '+' :: c :: _ => isWS c
  | _ => false

/-- `s.replace(/^---\s*/, "")` after the `---` prefix has been checked:
drop the three marker characters and any following whitespace. -/
def dropWS (s : Str) : Str := s.dropWhile isWS

/-- Header parsing and validation plus the hunk loop of `applyDiff`
(`diff-edit.ts` lines 20-113), producing the updated content. -/
def applyDiffCore (path udiff originalContent : Str) : Except DiffError Str :=
  let dl := splitLinesRN (stripFences udiff)
  match dl with
  | l0 :: l1 :: rest =>
    if ((ofString ("---")).isPrefixOf l0 && plusHeaderOk l1) = false then
      .error .malformedHeader
    else
      let oldFile := dropWS (l0.drop 3)
      let newFile := dropWS (l1.drop 3)
      let oldFilePath := stripAB oldFile
      let newFilePath := stripAB newFile
      if oldFilePath ≠ newFilePath then .error (.pathsDiffer oldFile newFile)
      else if stripAB path ≠ oldFilePath then
        .error (.pathTargetMismatch oldFilePath path)
      else if rest.any (fun l => (ofString ("---")).isPrefixOf l) then
        .error .multiFile
      else applyGo rest none (normalizeCRLF originalContent)
  | _ => .error .malformedHeader

/-- Leading common segment of two line lists, with the two remainders. -/
def commonPre : List Str → List Str → List Str × List Str × List Str
  | a :: as, b :: bs =>
    if a = b then
      let r := commonPre as bs
      (a :: r.1, r.2.1, r.2.2)
    else ([], a :: as, b :: bs)
  | as, bs => ([], as, bs)

/-- Trailing common segment of two line lists, with the two remainders. -/
def commonSufSplit (a b : List Str) : List Str × List Str × List Str :=
  let r := commonPre a.reverse b.reverse
  (r.2.1.reverse, r.2.2.reverse, r.1.reverse)

/-- Line list of a content string for diff emission: the split on `\n`
without the final empty element a trailing newline produces, so that the
empty content has no lines and `a\n` has the single line `a`. -/
def dSplitLines : Str → List Str
  | [] => []
  | c :: rest =>
    if c = '\n' then [] :: dSplitLines rest
    else
      match dSplitLines rest with
      | [] => [[c]]
      | l :: ls => (c :: l) :: ls

/-- Modelled from the spec: the `createPatch` function that `applyDiff`
imports from the npm `diff` package is not part of this repository's
sources, so the Diff Emitter of spec §4.4 is modelled here from the spec's
words: it "computes a line-based diff between the original content and the
final buffer" and renders `@@ ... @@` hunk markers with context, removed and
added lines; the `--- <path>` / `+++ <path>` header pair of the emitted diff
is prepended by `applyDiff` itself (`diff-edit.ts` line 118).  The net
change is rendered as one hunk: the common leading and trailing lines are
context, the differing middle lines are removed/added; an unchanged content
produces no hunk. -/
def createPatch (_path orig upd : Str) : Str :=
  let ol := dSplitLines orig
  let ul := dSplitLines upd
  let r1 := commonPre ol ul
  let r2 := commonSufSplit r1.2.1 r1.2.2
  if r2.1 = [] ∧ r2.2.1 = [] then []
  else
    joinNL (ofString ("@@ ... @@") ::
      (r1.1.map (fun l => ' ' :: l) ++ r2.1.map (fun l => '-' :: l)
        ++ r2.2.1.map (fun l => '+' :: l)
        ++ r2.2.2.map (fun l => ' ' :: l)))

/-- The `--- <path>\n+++ <path>\n` pair prepended to the emitted diff
(`diff-edit.ts` line 118). -/
def diffHeaders (path : Str) : Str :=
  ofString ("--- ") ++ path ++ '\n' :: ofString ("+++ ") ++ path ++ ['\n']

/-- `applyDiff` of `diff-edit.ts`: returns the updated content together with
the emitted unified diff of the changes that were applied. -/
def applyDiff (path udiff originalContent : Str) :
    Except DiffError (Str × Str) :=
  (applyDiffCore path udiff originalContent).map
    fun updated =>
      (updated, diffHeaders path ++ createPatch path originalContent updated)

/-- Monotonic-offset hunk location following the spec's words (§4.2 design
constraint: "begin searching each hunk no earlier than the end offset of the
previous hunk's replacement").  This is the comparison point for the claim
that the source tracks such an offset; the source itself searches from
position 0 (`updated.indexOf(searchBlock)`). -/
def applyHunkM (hl : List Str) (off : Nat) (u : Str) :
    Except DiffError (Str × Nat) :=
  let sb := (hunkBlocks hl).1
  match strIndexOf (u.drop off) sb with
  | none => .error (.hunkApply sb)
  | some j =>
    .ok (u.take (off + j) ++ (hunkBlocks hl).2 ++ u.drop (off + j + sb.length),
      off + j + (hunkBlocks hl).2.length)

/-- The hunk loop with the spec's monotonically advancing search offset;
identical to `applyGo` except for the per-hunk search start. -/
def applyGoM : List Str → Option (List Str) → Nat → Str → Except DiffError Str
  | [], none, _, u => .ok u
  | [], some acc, off, u => (applyHunkM acc.reverse off u).map Prod.fst
  | l :: ls, none, off, u =>
    if isHunkHeader l then applyGoM ls (some []) off u
    else if isBlank l then applyGoM ls none off u
    else .error (.hunkParse l)
  | l :: ls, some acc, off, u =>
    if isBoundary l then
      match applyHunkM acc.reverse off u with
      | .error e => .error e
      | .ok r =>
        if isHunkHeader l then applyGoM ls (some []) r.2 r.1
        else if isBlank l then applyGoM ls none r.2 r.1
        else .error (.hunkParse l)
    else applyGoM ls (some (l :: acc)) off u

/-- `applyDiffCore` with the spec's monotonic-offset location strategy in
place of the source's from-the-start search; the header handling is that of
the source. -/
def applyDiffMonoCore (path udiff originalContent : Str) :
    Except DiffError Str :=
  let dl := splitLinesRN (stripFences udiff)
  match dl with
  | l0 :: l1 :: rest =>
    if ((ofString ("---")).isPrefixOf l0 && plusHeaderOk l1) = false then
      .error .malformedHeader
    else
      let oldFile := dropWS (l0.drop 3)
      let newFile := dropWS (l1.drop 3)
      let oldFilePath := stripAB oldFile
      let newFilePath := stripAB newFile
      if oldFilePath ≠ newFilePath then .error (.pathsDiffer oldFile newFile)
      else if stripAB path ≠ oldFilePath then
        .error (.pathTargetMismatch oldFilePath path)
      else if rest.any (fun l => (ofString ("---")).isPrefixOf l) then
        .error .multiFile
      else applyGoM rest none 0 (normalizeCRLF originalContent)
  | _ => .error .malformedHeader

/-- Decimal rendering of a natural number. -/
def natToStr (n : Nat) : Str := Nat.toDigits 10 n

/-- A saved snapshot in the rollback store (`helpers.ts` lines 169-173). -/
structure RollbackEntry where
  content : Str
  timestamp : Nat
  reason : Str
deriving DecidableEq, Repr

/-- The state the rollback store and the diff-edit tool operate on: the
vault's file contents (`none` when the path does not resolve to a `TFile`)
and the module-level `rollbackStore` map (`helpers.ts` line 175).  The
Obsidian `normalizePath` collaborator is passed in as a function `np`, and
`Date.now()` as a number `now`. -/
structure SysState where
  files : Str → Option Str
  store : Str → Option RollbackEntry

/-- Pointwise update of a string-keyed map. -/
def upd {α : Type} (f : Str → Option α) (k : Str) (v : Option α) :
    Str → Option α :=
  fun q => if q = k then v else f q

/-- `saveRollback` (`helpers.ts` lines 180-191): normalize the path, and if
it resolves to a file, overwrite the store slot with the file's current
content. -/
def saveRollback (np : Str → Str) (now : Nat) (st : SysState)
    (path reason : Str) : SysState :=
  let p := np path
  match st.files p with
  | some content =>
    { st with store := upd st.store p (some ⟨content, now, reason⟩) }
  | none => st

/-- Message rendering for a successful rollback (`helpers.ts` lines
210-212); the `Date.toISOString` rendering of the timestamp is abstracted
to its decimal value. -/
def rollbackOkMsg (e : RollbackEntry) : Str :=
  ofString ("Rollback successful. Timestamp: ") ++ natToStr e.timestamp
    ++ ofString (", Reason: ") ++ e.reason

/-- `restoreRollback` (`helpers.ts` lines 196-215): look up the entry; a
missing entry or an unresolvable file is a failure that leaves the state
untouched; otherwise the saved content is written back and the entry is
deleted. -/
def restoreRollback (np : Str → Str) (st : SysState) (path : Str) :
    (Bool × Str) × SysState :=
  let p := np path
  match st.store p with
  | none => ((false, ofString ("No rollback available for this file.")), st)
  | some e =>
    match st.files p with
    | none => ((false, ofString ("File not found for rollback.")), st)
    | some _ =>
      ((true, rollbackOkMsg e),
        { files := upd st.files p (some e.content),
          store := upd st.store p none })

/-- Error message text of the `diff-edit-file` handler; the interpolated
line number of the hunk-parse message is abstracted away, the hunk-apply
message is the source's verbatim. -/
def errorText : DiffError → Str
  | .malformedHeader => ofString ("Missing ---/+++ headers")
  | .pathsDiffer o n =>
    ofString ("Diff targets two different files (") ++ o
      ++ ofString (" vs ") ++ n ++ ofString (").")
  | .pathTargetMismatch o p =>
    ofString ("Diff file path (") ++ o
      ++ ofString (") does not match provided path (") ++ p ++ ofString (").")
  | .multiFile =>
    ofString ("Diff targets multiple files; only single-file diffs are supported.")
  | .hunkParse h => ofString ("Expected hunk header: ") ++ h
  | .hunkApply sb => ofString ("Hunk failed to apply; could not find:\n") ++ sb

/-- The `diff-edit-file` tool handler (`diff-edit.ts` lines 143-174):
resolve the file, save a rollback snapshot, apply the diff, and only on
success write the updated content; the returned flag is `isError`. -/
def diffEditTool (np : Str → Str) (now : Nat) (st : SysState)
    (path udiff : Str) : (Bool × Str) × SysState :=
  let p := np path
  match st.files p with
  | none => ((true, ofString ("File not found or not a file: ") ++ p), st)
  | some content =>
    let st1 := saveRollback np now st p (ofString ("diff-edit-file"))
    match applyDiff p udiff content with
    | .ok r =>
      ((false, r.2), { st1 with files := upd st1.files p (some r.1) })
    | .error e =>
      ((true, ofString ("Error applying diff: ") ++ errorText e), st1)

example : normalizeCRLF (ofString ("a\r\nb")) = ofString ("a\nb") := by decide
example : splitLinesRN (ofString ("a\r\nb\nc")) =
    [ofString ("a"), ofString ("b"), ofString ("c")] := by decide
example : strIndexOf (ofString ("abcb")) (ofString ("b")) = some 1 := by decide
example : stripAB (ofString ("a/b/x")) = ofString ("x") := by decide
example : stripFences (ofString ("```diff\n--- f\n+++ f\n```")) =
    ofString ("--- f\n+++ f\n") := by decide
example :
    applyDiff (ofString ("f")) (ofString ("--- f\n+++ f\n@@ ... @@\n A\n-B\n+X\n C"))
      (ofString ("A\nB\nC\n")) =
    .ok (ofString ("A\nX\nC\n"),
      ofString ("--- f\n+++ f\n@@ ... @@\n A\n-B\n+X\n C")) := by decide

/-! ### Substring search lemmas -/

theorem occursAtB_zero (nd hay : Str) :
    occursAtB nd hay 0 = nd.isPrefixOf hay := by
  simp [occursAtB]

theorem occursAtB_succ (nd : Str) (c : Char) (t : Str) (i : Nat) :
    occursAtB nd (c :: t) (i + 1) = occursAtB nd t i := by
  simp [occursAtB]

theorem strIndexOf_some {hay nd : Str} {i : Nat}
    (h : strIndexOf hay nd = some i) :
    occursAtB nd hay i = true ∧ ∀ j, j < i → occursAtB nd hay j = false := by
  induction hay generalizing i with
  | nil =>
    by_cases hp : nd.isPrefixOf ([] : Str)
    · rw [strIndexOf, if_pos hp] at h
      cases h
      exact ⟨by simpa [occursAtB] using hp, by omega⟩
    · rw [strIndexOf, if_neg hp] at h
      cases h
  | cons c t ih =>
    by_cases hp : nd.isPrefixOf (c :: t)
    · rw [strIndexOf, if_pos hp] at h
      cases h
      exact ⟨by simpa [occursAtB] using hp, by omega⟩
    · rw [strIndexOf, if_neg hp] at h
      cases hsub : strIndexOf t nd with
      | none => rw [hsub] at h; cases h
      | some i' =>
        rw [hsub] at h
        simp only [Option.map_some'] at h
        injection h with h
        subst h
        obtain ⟨h1, h2⟩ := ih hsub
        refine ⟨?_, ?_⟩
        · rw [occursAtB_succ]; exact h1
        · intro j hj
          match j with
          | 0 =>
            rw [occursAtB_zero]
            exact Bool.not_eq_true _ ▸ (by simpa using hp)
          | j' + 1 =>
            rw [occursAtB_succ]
            exact h2 j' (by omega)

theorem strIndexOf_of_occursAtB {nd hay : Str} {i : Nat}
    (h : occursAtB nd hay i = true) :
    ∃ j, j ≤ i ∧ strIndexOf hay nd = some j := by
  induction hay generalizing i with
  | nil =>
    have hp : nd.isPrefixOf ([] : Str) = true := by
      simpa [occursAtB] using h
    exact ⟨0, Nat.zero_le _, by rw [strIndexOf, if_pos hp]⟩
  | cons c t ih =>
    by_cases hp : nd.isPrefixOf (c :: t)
    · exact ⟨0, Nat.zero_le _, by rw [strIndexOf, if_pos hp]⟩
    · match i with
      | 0 =>
        rw [occursAtB_zero] at h
        exact absurd h hp
      | i' + 1 =>
        rw [occursAtB_succ] at h
        obtain ⟨j, hj, hfind⟩ := ih h
        exact ⟨j + 1, by omega, by rw [strIndexOf, if_neg hp, hfind]; rfl⟩

theorem strIndexOf_isPrefixOf {hay nd : Str} (h : nd.isPrefixOf hay = true) :
    strIndexOf hay nd = some 0 := by
  cases hay with
  | nil => rw [strIndexOf, if_pos h]
  | cons c t => rw [strIndexOf, if_pos h]

theorem occursAtB_decomp {nd hay : Str} {i : Nat}
    (h : occursAtB nd hay i = true) :
    hay = hay.take i ++ nd ++ hay.drop (i + nd.length) := by
  have hpre : nd <+: hay.drop i := by
    simpa [occursAtB, List.isPrefixOf_iff_prefix] using h
  obtain ⟨r, hr⟩ := hpre
  have hdrop : hay.drop (i + nd.length) = r := by
    have h2 : hay.drop (i + nd.length) = (hay.drop i).drop nd.length := by
      rw [List.drop_drop]
    rw [h2, ← hr, List.drop_left]
  calc hay = hay.take i ++ hay.drop i := (List.take_append_drop i hay).symm
    _ = hay.take i ++ (nd ++ r) := by rw [hr]
    _ = hay.take i ++ nd ++ hay.drop (i + nd.length) := by
        rw [hdrop, List.append_assoc]

theorem occursAtB_le_length {nd hay : Str} {i : Nat}
    (h : occursAtB nd hay i = true) (hne : nd ≠ []) : i ≤ hay.length := by
  by_contra hgt
  have hnil : hay.drop i = [] := by
    apply List.drop_eq_nil_of_le
    omega
  have : nd <+: ([] : Str) := by
    have := h
    rw [occursAtB, hnil] at this
    exact List.isPrefixOf_iff_prefix.mp this
  exact hne (List.prefix_nil.mp this)

theorem occCount_unique {hay nd : Str} {i j : Nat}
    (hc : occCount hay nd = 1)
    (hi : occursAtB nd hay i = true) (hj : occursAtB nd hay j = true)
    (hil : i ≤ hay.length) (hjl : j ≤ hay.length) : i = j := by
  unfold occCount at hc
  obtain ⟨a, ha⟩ := List.length_eq_one.mp hc
  have hmi : i ∈ (List.range (hay.length + 1)).filter
      (fun k => occursAtB nd hay k) := by
    rw [List.mem_filter, List.mem_range]
    exact ⟨by omega, hi⟩
  have hmj : j ∈ (List.range (hay.length + 1)).filter
      (fun k => occursAtB nd hay k) := by
    rw [List.mem_filter, List.mem_range]
    exact ⟨by omega, hj⟩
  rw [ha, List.mem_singleton] at hmi hmj
  rw [hmi, hmj]

theorem strIndexOf_of_unique {hay nd : Str} {i : Nat}
    (hc : occCount hay nd = 1) (hi : occursAtB nd hay i = true)
    (hil : i ≤ hay.length) : strIndexOf hay nd = some i := by
  obtain ⟨j, hj, hfind⟩ := strIndexOf_of_occursAtB hi
  obtain ⟨hocc, _⟩ := strIndexOf_some hfind
  have : j = i := occCount_unique hc hocc hi (by omega) hil
  rw [hfind, this]

/-! ### Line splitting and joining lemmas -/

theorem splitNL_ne_nil (s : Str) : splitNL s ≠ [] := by
  cases s with
  | nil => simp [splitNL]
  | cons c rest =>
    rw [splitNL]
    by_cases hc : c = '\n'
    · simp [hc]
    · rw [if_neg hc]
      cases splitNL rest <;> simp

theorem splitNL_append_cons {a : Str} (b : Str) (ha : '\n' ∉ a) :
    splitNL (a ++ '\n' :: b) = a :: splitNL b := by
  induction a with
  | nil => simp [splitNL]
  | cons c a' ih =>
    have hc : c ≠ '\n' := fun hcc => ha (hcc ▸ List.mem_cons_self _ _)
    have iha := ih (fun hm => ha (List.mem_cons_of_mem _ hm))
    rw [List.cons_append, splitNL, if_neg hc, iha]

theorem splitNL_of_no_nl {l : Str} (h : '\n' ∉ l) : splitNL l = [l] := by
  induction l with
  | nil => rfl
  | cons c t ih =>
    have hc : c ≠ '\n' := fun hcc => h (hcc ▸ List.mem_cons_self _ _)
    rw [splitNL, if_neg hc, ih (fun hm => h (List.mem_cons_of_mem _ hm))]

theorem splitNL_joinNL {ls : List Str} (h : ∀ l ∈ ls, '\n' ∉ l)
    (hne : ls ≠ []) : splitNL (joinNL ls) = ls := by
  induction ls with
  | nil => exact absurd rfl hne
  | cons l rest ih =>
    cases rest with
    | nil => exact splitNL_of_no_nl (h l (List.mem_cons_self _ _))
    | cons m ms =>
      have : joinNL (l :: m :: ms) = l ++ '\n' :: joinNL (m :: ms) := rfl
      rw [this, splitNL_append_cons _ (h l (List.mem_cons_self _ _)),
        ih (fun x hx => h x (List.mem_cons_of_mem _ hx)) (by simp)]

theorem mem_splitNL_no_nl {s l : Str} (h : l ∈ splitNL s) : '\n' ∉ l := by
  induction s generalizing l with
  | nil =>
    simp only [splitNL, List.mem_singleton] at h
    simp [h]
  | cons c rest ih =>
    rw [splitNL] at h
    by_cases hc : c = '\n'
    · rw [if_pos hc] at h
      rcases List.mem_cons.mp h with h1 | h1
      · simp [h1]
      · exact ih h1
    · rw [if_neg hc] at h
      cases hsp : splitNL rest with
      | nil => exact absurd hsp (splitNL_ne_nil rest)
      | cons m ms =>
        rw [hsp] at h
        rcases List.mem_cons.mp h with h1 | h1
        · subst h1
          intro hmem
          rcases List.mem_cons.mp hmem with h2 | h2
          · exact hc h2.symm
          · exact ih (hsp ▸ List.mem_cons_self _ _) h2
        · exact ih (hsp ▸ List.mem_cons_of_mem _ h1)

theorem joinNL_splitNL (s : Str) : joinNL (splitNL s) = s := by
  induction s with
  | nil => rfl
  | cons c rest ih =>
    rw [splitNL]
    by_cases hc : c = '\n'
    · rw [if_pos hc]
      cases hsp : splitNL rest with
      | nil => exact absurd hsp (splitNL_ne_nil rest)
      | cons m ms =>
        have : joinNL ([] :: m :: ms) = '\n' :: joinNL (m :: ms) := rfl
        rw [this, ← hsp, ih, hc]
    · rw [if_neg hc]
      cases hsp : splitNL rest with
      | nil => exact absurd hsp (splitNL_ne_nil rest)
      | cons m ms =>
        cases ms with
        | nil =>
          have hm : joinNL [c :: m] = c :: m := rfl
          rw [hm]
          have : joinNL [m] = m := rfl
          rw [hsp, this] at ih
          rw [ih]
        | cons m2 ms2 =>
          have : joinNL ((c :: m) :: m2 :: ms2)
              = c :: joinNL (m :: m2 :: ms2) := rfl
          rw [this, ← hsp, ih]

theorem normalizeCRLF_of_no_cr {s : Str} (h : '\r' ∉ s) :
    normalizeCRLF s = s := by
  induction s with
  | nil => rfl
  | cons c t ih =>
    cases t with
    | nil => rfl
    | cons d rest =>
      have hc : c ≠ '\r' := fun hcc => h (hcc ▸ List.mem_cons_self _ _)
      rw [normalizeCRLF, if_neg (fun hand => hc hand.1)]
      rw [ih (fun hm => h (List.mem_cons_of_mem _ hm))]

theorem containsSub_cons_false {c : Char} {t nd : Str}
    (h : containsSub (c :: t) nd = false) : containsSub t nd = false := by
  unfold containsSub at h ⊢
  rw [strIndexOf] at h
  by_cases hp : nd.isPrefixOf (c :: t)
  · rw [if_pos hp] at h
    simp at h
  · rw [if_neg hp] at h
    cases hfind : strIndexOf t nd with
    | none => simp
    | some j => rw [hfind] at h; simp at h

theorem containsSub_not_head {c : Char} {t nd : Str}
    (h : containsSub (c :: t) nd = false) :
    nd.isPrefixOf (c :: t) = false := by
  unfold containsSub at h
  rw [strIndexOf] at h
  by_cases hp : nd.isPrefixOf (c :: t)
  · rw [if_pos hp] at h
    simp at h
  · exact Bool.not_eq_true _ ▸ hp

theorem normalizeCRLF_of_no_crlf {s : Str}
    (h : containsSub s (ofString ("\r\n")) = false) : normalizeCRLF s = s := by
  induction s with
  | nil => rfl
  | cons c t ih =>
    cases t with
    | nil => rfl
    | cons d rest =>
      have hp := containsSub_not_head h
      have hcd : ¬(c = '\r' ∧ d = '\n') := by
        intro hand
        rw [hand.1, hand.2] at hp
        have : (ofString ("\r\n")).isPrefixOf ('\r' :: '\n' :: rest) = true := by
          simp [ofString, List.isPrefixOf]
        rw [this] at hp
        cases hp
      rw [normalizeCRLF, if_neg hcd, ih (containsSub_cons_false h)]

theorem dSplitLines_ne_nil {s : Str} (h : s ≠ []) : dSplitLines s ≠ [] := by
  cases s with
  | nil => exact absurd rfl h
  | cons c rest =>
    rw [dSplitLines]
    by_cases hc : c = '\n'
    · simp [hc]
    · rw [if_neg hc]
      cases dSplitLines rest <;> simp

/-- The trailing-newline marker of a content string. -/
def tailNL (s : Str) : Str := if s.getLast? = some '\n' then ['\n'] else []

theorem getLast?_cons_ne_nil {c : Char} {t : Str} (h : t ≠ []) :
    (c :: t).getLast? = t.getLast? := by
  cases t with
  | nil => exact absurd rfl h
  | cons d rest => exact List.getLast?_cons_cons

theorem tailNL_cons {c : Char} {t : Str} (h : t ≠ []) :
    tailNL (c :: t) = tailNL t := by
  unfold tailNL
  rw [getLast?_cons_ne_nil h]

theorem dSplitLines_reconstruct (s : Str) :
    joinNL (dSplitLines s) ++ tailNL s = s := by
  induction s with
  | nil => rfl
  | cons c rest ih =>
    rw [dSplitLines]
    by_cases hc : c = '\n'
    · rw [if_pos hc]
      cases rest with
      | nil =>
        subst hc
        rfl
      | cons d rest' =>
        have hne : dSplitLines (d :: rest') ≠ [] := dSplitLines_ne_nil (by simp)
        cases hsp : dSplitLines (d :: rest') with
        | nil => exact absurd hsp hne
        | cons m ms =>
          have hj : joinNL ([] :: m :: ms) = '\n' :: joinNL (m :: ms) := rfl
          rw [hsp] at ih
          rw [hj, tailNL_cons (by simp : (d :: rest' : Str) ≠ []), hc]
          rw [List.cons_append, ih]
    · rw [if_neg hc]
      cases rest with
      | nil =>
        have : dSplitLines ([] : Str) = [] := rfl
        rw [this]
        simp only [joinNL, tailNL]
        have : ([c] : Str).getLast? = some c := rfl
        rw [this]
        have hne2 : ¬ (some c = some '\n') := by
          intro hcc
          injection hcc with hcc
          exact hc hcc
        rw [if_neg hne2]
        rfl
      | cons d rest' =>
        have hne : dSplitLines (d :: rest') ≠ [] := dSplitLines_ne_nil (by simp)
        cases hsp : dSplitLines (d :: rest') with
        | nil => exact absurd hsp hne
        | cons m ms =>
          rw [hsp] at ih
          rw [tailNL_cons (by simp : (d :: rest' : Str) ≠ [])]
          cases ms with
          | nil =>
            have hj : joinNL [c :: m] = c :: joinNL [m] := rfl
            rw [hj, List.cons_append, ih]
          | cons m2 ms2 =>
            have hj : joinNL ((c :: m) :: m2 :: ms2)
                = c :: joinNL (m :: m2 :: ms2) := rfl
            rw [hj, List.cons_append, ih]

theorem mem_dSplitLines_no_nl {s l : Str} (h : l ∈ dSplitLines s) :
    '\n' ∉ l := by
  induction s generalizing l with
  | nil => simp [dSplitLines] at h
  | cons c rest ih =>
    rw [dSplitLines] at h
    by_cases hc : c = '\n'
    · rw [if_pos hc] at h
      rcases List.mem_cons.mp h with h1 | h1
      · simp [h1]
      · exact ih h1
    · rw [if_neg hc] at h
      cases hsp : dSplitLines rest with
      | nil =>
        rw [hsp, List.mem_singleton] at h
        subst h
        intro hmem
        rcases List.mem_cons.mp hmem with h2 | h2
        · exact hc h2.symm
        · simp at h2
      | cons m ms =>
        rw [hsp] at h
        rcases List.mem_cons.mp h with h1 | h1
        · subst h1
          intro hmem
          rcases List.mem_cons.mp hmem with h2 | h2
          · exact hc h2.symm
          · exact ih (hsp ▸ List.mem_cons_self _ _) h2
        · exact ih (hsp ▸ List.mem_cons_of_mem _ h1)

theorem dSplitLines_getLast_nil {s : Str}
    (h : (dSplitLines s).getLast? = some []) : s.getLast? = some '\n' := by
  induction s with
  | nil => simp [dSplitLines] at h
  | cons c rest ih =>
    rw [dSplitLines] at h
    by_cases hc : c = '\n'
    · rw [if_pos hc] at h
      cases hr : rest with
      | nil =>
        subst hr
        rw [hc]
        rfl
      | cons d rest' =>
        subst hr
        rw [getLast?_cons_ne_nil (by simp : (d :: rest' : Str) ≠ [])]
        apply ih
        rw [← h]
        have hne : dSplitLines (d :: rest') ≠ [] := dSplitLines_ne_nil (by simp)
        cases hsp : dSplitLines (d :: rest') with
        | nil => exact absurd hsp hne
        | cons m ms => exact (List.getLast?_cons_cons).symm
    · rw [if_neg hc] at h
      cases hsp : dSplitLines rest with
      | nil =>
        rw [hsp] at h
        simp at h
      | cons m ms =>
        rw [hsp] at h
        cases ms with
        | nil =>
          simp at h
        | cons m2 ms2 =>
          have hrest : rest ≠ [] := by
            intro hzz
            rw [hzz] at hsp
            simp [dSplitLines] at hsp
          rw [getLast?_cons_ne_nil hrest]
          apply ih
          rw [hsp]
          rw [List.getLast?_cons_cons] at h ⊢
          exact h

/-! ### Hunk classification lemmas -/

theorem classifyLines_append (a b : List Str) :
    classifyLines (a ++ b)
      = ((classifyLines a).1 ++ (classifyLines b).1,
         (classifyLines a).2 ++ (classifyLines b).2) := by
  induction a with
  | nil => simp [classifyLines]
  | cons h t ih =>
    cases h with
    | nil =>
      simp only [List.cons_append, classifyLines]
      simpa using ih
    | cons c cs =>
      simp only [List.cons_append, classifyLines]
      by_cases h1 : c == ' '
      · simp [h1, ih]
      · by_cases h2 : c == '-'
        · simp [h1, h2, ih]
        · by_cases h3 : c == '+'
          · simp [h1, h2, h3, ih]
          · simp [h1, h2, h3, ih]

theorem classifyLines_ctx (ls : List Str) :
    classifyLines (ls.map fun l => ' ' :: l) = (ls, ls) := by
  induction ls with
  | nil => rfl
  | cons l t ih => simp [classifyLines, ih]

theorem classifyLines_rem (ls : List Str) :
    classifyLines (ls.map fun l => '-' :: l) = (ls, []) := by
  induction ls with
  | nil => rfl
  | cons l t ih => simp [classifyLines, ih]

theorem classifyLines_add (ls : List Str) :
    classifyLines (ls.map fun l => '+' :: l) = ([], ls) := by
  induction ls with
  | nil => rfl
  | cons l t ih => simp [classifyLines, ih]

theorem isBoundary_space (x : Str) : isBoundary (' ' :: x) = false := rfl

theorem isBoundary_plus (x : Str) : isBoundary ('+' :: x) = false := rfl

theorem isBoundary_dash (x : Str) :
    isBoundary ('-' :: x) = (ofString ("--")).isPrefixOf x := rfl

/-! ### Hunk loop lemmas -/

theorem applyGo_nil_some (acc : List Str) (u : Str) :
    applyGo [] (some acc) u = applyHunk acc.reverse u := rfl

theorem applyGo_cons_some_of_not_boundary {l : Str} (ls : List Str)
    (acc : List Str) (u : Str) (h : isBoundary l = false) :
    applyGo (l :: ls) (some acc) u = applyGo ls (some (l :: acc)) u := by
  rw [applyGo, if_neg (by simp [h])]

theorem applyGo_consume {hl : List Str} (rest : List Str) (acc : List Str)
    (u : Str) (h : ∀ l ∈ hl, isBoundary l = false) :
    applyGo (hl ++ rest) (some acc) u
      = applyGo rest (some (hl.reverse ++ acc)) u := by
  induction hl generalizing acc with
  | nil => simp
  | cons l t ih =>
    rw [List.cons_append,
      applyGo_cons_some_of_not_boundary _ _ _ (h l (List.mem_cons_self _ _)),
      ih (l :: acc) (fun x hx => h x (List.mem_cons_of_mem _ hx))]
    congr 1
    simp

theorem applyGo_single_hunk {hh : Str} {hl : List Str} {u : Str}
    (hhdr : isHunkHeader hh = true)
    (hbody : ∀ l ∈ hl, isBoundary l = false) :
    applyGo (hh :: hl) none u = applyHunk hl u := by
  rw [applyGo, if_pos hhdr]
  have := applyGo_consume ([] : List Str) ([] : List Str) u hbody
  rw [List.append_nil] at this
  rw [this, applyGo_nil_some]
  simp

/-! ### Header parsing lemma -/

theorem any_dash_false {rest : List Str}
    (hmf : rest.all (fun l => !((ofString ("---")).isPrefixOf l)) = true) :
    rest.any (fun l => (ofString ("---")).isPrefixOf l) = false := by
  rw [List.any_eq_false]
  intro x hx
  have h := List.all_eq_true.mp hmf x hx
  simp only [Bool.not_eq_true'] at h
  simp [h]

theorem applyDiffCore_parse {p text : Str} {rest : List Str} (O : Str)
    (hsplit : splitLinesRN (stripFences text)
      = (ofString ("--- ") ++ p) :: (ofString ("+++ ") ++ p) :: rest)
    (hp : dropWS p = p)
    (hmf : rest.all (fun l => !((ofString ("---")).isPrefixOf l)) = true) :
    applyDiffCore p text O = applyGo rest none (normalizeCRLF O) := by
  have h0 : (ofString ("---")).isPrefixOf (ofString ("--- ") ++ p) = true := rfl
  have h1 : plusHeaderOk (ofString ("+++ ") ++ p) = true := rfl
  have h2 : dropWS ((ofString ("--- ") ++ p).drop 3) = p := by
    show dropWS (' ' :: p) = p
    rw [dropWS, List.dropWhile_cons]
    simp only [isWS]
    rw [if_pos (by decide)]
    exact hp
  have h3 : dropWS ((ofString ("+++ ") ++ p).drop 3) = p := by
    show dropWS (' ' :: p) = p
    rw [dropWS, List.dropWhile_cons]
    simp only [isWS]
    rw [if_pos (by decide)]
    exact hp
  unfold applyDiffCore
  rw [hsplit]
  simp only [h0, h1, h2, h3, Bool.and_self, any_dash_false hmf]
  rw [if_neg (by simp), if_neg (by simp), if_neg (by simp), if_neg (by simp)]

theorem applyDiff_map_fst (p t C : Str) :
    (applyDiff p t C).map Prod.fst = applyDiffCore p t C := by
  unfold applyDiff
  cases applyDiffCore p t C <;> rfl

theorem isBlank_not_dash {l : Str} (h : isBlank l = true) :
    (ofString ("---")).isPrefixOf l = false := by
  by_contra hne
  have hpre : ofString ("---") <+: l :=
    List.isPrefixOf_iff_prefix.mp (by simpa using hne)
  obtain ⟨r, hr⟩ := hpre
  have hd : '-' ∈ l := by
    rw [← hr]
    exact List.mem_append_left _ (by simp [ofString])
  have := List.all_eq_true.mp h '-' hd
  simp [isWS] at this

theorem isBlank_not_hunkHeader {l : Str} (h : isBlank l = true) :
    isHunkHeader l = false := by
  unfold isHunkHeader
  cases l with
  | nil => rfl
  | cons c t =>
    have hc := List.all_eq_true.mp h c (List.mem_cons_self _ _)
    by_cases hcc : c = '@'
    · rw [hcc] at hc
      simp [isWS] at hc
    · have : (ofString ("@@")).isPrefixOf (c :: t) = false := by
        by_contra hne
        have hpre : ofString ("@@") <+: c :: t :=
          List.isPrefixOf_iff_prefix.mp (by simpa using hne)
        obtain ⟨r, hr⟩ := hpre
        have : c = '@' := by
          have := congrArg (fun x => x.head?) hr
          simpa [ofString] using this.symm
        exact hcc this
      rw [this]
      rfl

theorem applyGo_blanks {blanks : List Str} (u : Str)
    (h : blanks.all isBlank = true) : applyGo blanks none u = .ok u := by
  induction blanks with
  | nil => rfl
  | cons l t ih =>
    have hl : isBlank l = true := List.all_eq_true.mp h l (List.mem_cons_self _ _)
    rw [applyGo, if_neg (by simp [isBlank_not_hunkHeader hl]),
      if_pos (by simp [hl])]
    exact ih (by
      rw [List.all_eq_true]
      intro x hx
      exact List.all_eq_true.mp h x (List.mem_cons_of_mem _ hx))

theorem isBlank_all_not_dash {blanks : List Str}
    (h : blanks.all isBlank = true) :
    blanks.all (fun l => !((ofString ("---")).isPrefixOf l)) = true := by
  rw [List.all_eq_true]
  intro x hx
  have := isBlank_not_dash (List.all_eq_true.mp h x hx)
  simp [this]

/-- C10: a diff consisting of only the two header lines with matching paths
plus optional blank lines and zero hunks is accepted, and the updated
content is the original content with CRLF line endings replaced by LF. -/
theorem claim_C10 {p text C : Str} {blanks : List Str}
    (hsplit : splitLinesRN (stripFences text)
      = (ofString ("--- ") ++ p) :: (ofString ("+++ ") ++ p) :: blanks)
    (hp : dropWS p = p)
    (hblank : blanks.all isBlank = true) :
    (applyDiff p text C).map Prod.fst = .ok (normalizeCRLF C) := by
  rw [applyDiff_map_fst,
    applyDiffCore_parse C hsplit hp (isBlank_all_not_dash hblank),
    applyGo_blanks _ hblank]

/-- Witness for C10: the concrete diff `--- f\n+++ f\n\n` applied to
`a\r\nb` is accepted and returns `a\nb`. -/
theorem claim_C10_witness :
    splitLinesRN (stripFences (ofString ("--- f\n+++ f\n")))
      = (ofString ("--- ") ++ ofString ("f"))
        :: (ofString ("+++ ") ++ ofString ("f")) :: [[]]
    ∧ (applyDiff (ofString ("f")) (ofString ("--- f\n+++ f\n"))
        (ofString ("a\r\nb"))).map Prod.fst
      = .ok (normalizeCRLF (ofString ("a\r\nb"))) :=
  ⟨by decide,
    @claim_C10 (ofString ("f")) (ofString ("--- f\n+++ f\n"))
      (ofString ("a\r\nb")) [[]] (by decide) (by decide) (by decide)⟩

theorem hunkHeader_not_dash {hh : Str} (h : isHunkHeader hh = true) :
    (ofString ("---")).isPrefixOf hh = false := by
  have hat : (ofString ("@@")).isPrefixOf hh = true :=
    (Bool.and_eq_true _ _ |>.mp h).1
  have hpre : ofString ("@@") <+: hh :=
    List.isPrefixOf_iff_prefix.mp hat
  obtain ⟨r, hr⟩ := hpre
  subst hr
  rfl

theorem boundary_false_not_dash {l : Str} (h : isBoundary l = false) :
    (ofString ("---")).isPrefixOf l = false := by
  unfold isBoundary at h
  exact (Bool.or_eq_false_iff.mp h).2

theorem all_not_boundary_elim {hl : List Str}
    (h : hl.all (fun l => !(isBoundary l)) = true) :
    ∀ l ∈ hl, isBoundary l = false := by
  intro l hm
  have := List.all_eq_true.mp h l hm
  simpa using this

theorem hunk_lines_not_dash {hh : Str} {hl : List Str}
    (hhdr : isHunkHeader hh = true)
    (hbody : hl.all (fun l => !(isBoundary l)) = true) :
    (hh :: hl).all (fun l => !((ofString ("---")).isPrefixOf l)) = true := by
  rw [List.all_eq_true]
  intro x hx
  rcases List.mem_cons.mp hx with h1 | h1
  · subst h1
    simp [hunkHeader_not_dash hhdr]
  · simp [boundary_false_not_dash (all_not_boundary_elim hbody x h1)]

/-- C6: a single-hunk diff whose derived search block is empty, applied to
empty original content, succeeds and produces exactly the hunk's replace
block (a file-creation edit). -/
theorem claim_C6 {p text hh : Str} {hl : List Str}
    (hsplit : splitLinesRN (stripFences text)
      = (ofString ("--- ") ++ p) :: (ofString ("+++ ") ++ p) :: hh :: hl)
    (hp : dropWS p = p)
    (hhdr : isHunkHeader hh = true)
    (hbody : hl.all (fun l => !(isBoundary l)) = true)
    (hsb : (hunkBlocks hl).1 = []) :
    (applyDiff p text []).map Prod.fst = .ok (hunkBlocks hl).2 := by
  rw [applyDiff_map_fst,
    applyDiffCore_parse [] hsplit hp (hunk_lines_not_dash hhdr hbody)]
  have hnorm : normalizeCRLF [] = [] := rfl
  rw [hnorm, applyGo_single_hunk hhdr (all_not_boundary_elim hbody)]
  unfold applyHunk
  simp [hsb, strIndexOf]

/-- Witness for C6: empty content with replace block `hello` yields
`hello`. -/
theorem claim_C6_witness :
    (hunkBlocks [ofString ("+hello")]).1 = []
    ∧ (applyDiff (ofString ("f")) (ofString ("--- f\n+++ f\n@@ ... @@\n+hello"))
        []).map Prod.fst = .ok (ofString ("hello")) := by
  refine ⟨by decide, ?_⟩
  have h := @claim_C6 (ofString ("f"))
    (ofString ("--- f\n+++ f\n@@ ... @@\n+hello"))
    (ofString ("@@ ... @@")) [ofString ("+hello")]
    (by decide) (by decide) (by decide) (by decide) (by decide)
  have hrb : (hunkBlocks [ofString ("+hello")]).2 = ofString ("hello") := by decide
  rw [h, hrb]

/-- C2 counterexample: for content `a\r\nb` and the single-hunk diff
replacing `b` by `c`, the search block `b` occurs exactly once (at byte 3),
so the claim predicts the result `a\r\nc` with all other bytes unchanged;
the code instead returns `a\nc` — the `\r` outside the replaced occurrence
is gone, because the buffer is CRLF-normalized before matching. -/
theorem claim_C2_counterexample :
    (hunkBlocks [ofString ("-b"), ofString ("+c")]).1 = ofString ("b")
    ∧ occCount (ofString ("a\r\nb")) (ofString ("b")) = 1
    ∧ occursAtB (ofString ("b")) (ofString ("a\r\nb")) 3 = true
    ∧ (ofString ("a\r\nb")).take 3 ++ ofString ("c")
        ++ (ofString ("a\r\nb")).drop 4 = ofString ("a\r\nc")
    ∧ (applyDiff (ofString ("f"))
        (ofString ("--- f\n+++ f\n@@ ... @@\n-b\n+c"))
        (ofString ("a\r\nb"))).map Prod.fst = .ok (ofString ("a\nc"))
    ∧ ofString ("a\nc") ≠ ofString ("a\r\nc") := by decide

/-- C2 (amended): for CRLF-free content `C` and a single-hunk diff whose
search block occurs exactly once in `C`, `applyDiff` succeeds and returns
`C` with only that occurrence replaced by the replace block; all other
bytes are unchanged. -/
theorem claim_C2 {p text hh C : Str} {hl : List Str} {i : Nat}
    (hsplit : splitLinesRN (stripFences text)
      = (ofString ("--- ") ++ p) :: (ofString ("+++ ") ++ p) :: hh :: hl)
    (hp : dropWS p = p)
    (hhdr : isHunkHeader hh = true)
    (hbody : hl.all (fun l => !(isBoundary l)) = true)
    (hcrlf : containsSub C (ofString ("\r\n")) = false)
    (hocc : occCount C (hunkBlocks hl).1 = 1)
    (hat : occursAtB (hunkBlocks hl).1 C i = true)
    (hle : i ≤ C.length) :
    (applyDiff p text C).map Prod.fst
      = .ok (C.take i ++ (hunkBlocks hl).2
          ++ C.drop (i + (hunkBlocks hl).1.length)) := by
  rw [applyDiff_map_fst,
    applyDiffCore_parse C hsplit hp (hunk_lines_not_dash hhdr hbody),
    normalizeCRLF_of_no_crlf hcrlf,
    applyGo_single_hunk hhdr (all_not_boundary_elim hbody)]
  simp only [applyHunk, strIndexOf_of_unique hocc hat hle]

/-- Witness for C2: content `a\nb`, diff replacing `b` by `c`, occurrence
at byte 2. -/
theorem claim_C2_witness :
    occCount (ofString ("a\nb")) (hunkBlocks [ofString ("-b"), ofString ("+c")]).1 = 1
    ∧ occursAtB (hunkBlocks [ofString ("-b"), ofString ("+c")]).1
        (ofString ("a\nb")) 2 = true
    ∧ (applyDiff (ofString ("f"))
        (ofString ("--- f\n+++ f\n@@ ... @@\n-b\n+c"))
        (ofString ("a\nb"))).map Prod.fst = .ok (ofString ("a\nc")) := by
  refine ⟨by decide, by decide, ?_⟩
  have h := @claim_C2 (ofString ("f"))
    (ofString ("--- f\n+++ f\n@@ ... @@\n-b\n+c")) (ofString ("@@ ... @@"))
    (ofString ("a\nb")) [ofString ("-b"), ofString ("+c")] 2
    (by decide) (by decide) (by decide) (by decide) (by decide) (by decide)
    (by decide) (by decide)
  rw [h]
  decide

theorem getLast?_cons_of_ne_nil {α : Type} {t : List α} (h : t ≠ [])
    (c : α) : (c :: t).getLast? = t.getLast? := by
  cases t with
  | nil => exact absurd rfl h
  | cons d rest => exact List.getLast?_cons_cons

/-- C5 counterexample: in the hunk body ` a`, ``, ` b` the completely empty
middle line is skipped, so the derived search block is `a\nb`, not the
`a\n\nb` the claim predicts; on the content `a\n\nb` (which contains the
claim's predicted search block at position 0) the diff therefore fails with
a hunk-apply error naming `a\nb`. -/
theorem claim_C5_counterexample :
    (hunkBlocks [ofString (" a"), [], ofString (" b")]).1 = ofString ("a\nb")
    ∧ ofString ("a\nb") ≠ ofString ("a\n\nb")
    ∧ strIndexOf (ofString ("a\n\nb")) (ofString ("a\n\nb")) = some 0
    ∧ applyDiff (ofString ("f"))
        (ofString ("--- f\n+++ f\n@@ ... @@\n a\n\n b")) (ofString ("a\n\nb"))
      = .error (.hunkApply (ofString ("a\nb"))) := by decide

/-- C5 (amended): a completely empty line in a hunk body contributes
nothing to either derived block when it is not the last body line, and the
same holds for lines whose first character is not space, `-` or `+`; an
empty line in final position instead appends a trailing newline to both
derived blocks. -/
theorem claim_C5 :
    (∀ (xs ys : List Str), ys ≠ [] →
      hunkBlocks (xs ++ [] :: ys) = hunkBlocks (xs ++ ys))
    ∧ (∀ (xs ys : List Str) (c : Char) (cs : Str), ys ≠ [] →
      (c == ' ') = false → (c == '-') = false → (c == '+') = false →
      hunkBlocks (xs ++ (c :: cs) :: ys) = hunkBlocks (xs ++ ys))
    ∧ (∀ xs : List Str,
      hunkBlocks (xs ++ [[]])
        = (joinNL (classifyLines xs).1 ++ ['\n'],
           joinNL (classifyLines xs).2 ++ ['\n'])) := by
  refine ⟨?_, ?_, ?_⟩
  · intro xs ys hys
    unfold hunkBlocks
    rw [classifyLines_append, classifyLines_append]
    have hcl : classifyLines ([] :: ys) = classifyLines ys := rfl
    rw [hcl]
    have htr : trailingNL (xs ++ [] :: ys) = trailingNL (xs ++ ys) := by
      unfold trailingNL
      rw [List.getLast?_append_of_ne_nil _ (by simp),
        List.getLast?_append_of_ne_nil _ hys, getLast?_cons_of_ne_nil hys]
    rw [htr]
  · intro xs ys c cs hys h1 h2 h3
    unfold hunkBlocks
    rw [classifyLines_append, classifyLines_append]
    have hcl : classifyLines ((c :: cs) :: ys) = classifyLines ys := by
      rw [classifyLines]
      simp [h1, h2, h3]
    rw [hcl]
    have htr : trailingNL (xs ++ (c :: cs) :: ys) = trailingNL (xs ++ ys) := by
      unfold trailingNL
      rw [List.getLast?_append_of_ne_nil _ (by simp),
        List.getLast?_append_of_ne_nil _ hys, getLast?_cons_of_ne_nil hys]
    rw [htr]
  · intro xs
    unfold hunkBlocks
    rw [classifyLines_append]
    have h1 : classifyLines [[]] = ([], []) := rfl
    rw [h1]
    have htr : trailingNL (xs ++ [[]]) = true := by
      unfold trailingNL
      rw [List.getLast?_append_of_ne_nil _ (by simp)]
      rfl
    rw [htr]
    simp

/-- Witness for C5: concrete instances of all three amended parts. -/
theorem claim_C5_witness :
    hunkBlocks [ofString (" a"), [], ofString (" b")]
      = hunkBlocks [ofString (" a"), ofString (" b")]
    ∧ hunkBlocks [ofString (" a"), ofString ("xq"), ofString (" b")]
      = hunkBlocks [ofString (" a"), ofString (" b")]
    ∧ hunkBlocks [ofString (" a"), []]
      = (joinNL (classifyLines [ofString (" a")]).1 ++ ['\n'],
         joinNL (classifyLines [ofString (" a")]).2 ++ ['\n']) :=
  ⟨claim_C5.1 [ofString (" a")] [ofString (" b")] (by decide),
   claim_C5.2.1 [ofString (" a")] [ofString (" b")] 'x' (ofString ("q"))
     (by decide) (by decide) (by decide) (by decide),
   claim_C5.2.2 [ofString (" a")]⟩

/-- C3 counterexample: on content `b\na\nb` with a first hunk replacing `a`
by `X` and a second hunk replacing `b` by `Y`, the code searches the second
hunk from buffer position 0 and so rewrites the first `b` — the one before
the end of the previous replacement — yielding `Y\nX\nb`; the spec's
monotonic-offset strategy would instead yield `b\nX\nY`. -/
theorem claim_C3_counterexample :
    (applyDiff (ofString ("f"))
      (ofString ("--- f\n+++ f\n@@ ... @@\n-a\n+X\n@@ ... @@\n-b\n+Y"))
      (ofString ("b\na\nb"))).map Prod.fst = .ok (ofString ("Y\nX\nb"))
    ∧ applyDiffMonoCore (ofString ("f"))
        (ofString ("--- f\n+++ f\n@@ ... @@\n-a\n+X\n@@ ... @@\n-b\n+Y"))
        (ofString ("b\na\nb")) = .ok (ofString ("b\nX\nY"))
    ∧ ofString ("Y\nX\nb") ≠ ofString ("b\nX\nY")
    ∧ strIndexOf (ofString ("b\nX\nb")) (ofString ("b")) = some 0 := by decide

/-- C3 (amended): every hunk's search starts at buffer position 0 of the
current working buffer: the hunk is applied at the first occurrence of its
search block (the returned index admits no earlier occurrence), regardless
of where the previous hunk's replacement ended. -/
theorem claim_C3 {hh : Str} {hl : List Str} {u : Str} {i : Nat}
    (hhdr : isHunkHeader hh = true)
    (hbody : hl.all (fun l => !(isBoundary l)) = true)
    (hfind : strIndexOf u (hunkBlocks hl).1 = some i) :
    applyGo (hh :: hl) none u
      = .ok (u.take i ++ (hunkBlocks hl).2
          ++ u.drop (i + (hunkBlocks hl).1.length))
    ∧ occursAtB (hunkBlocks hl).1 u i = true
    ∧ ∀ j, j < i → occursAtB (hunkBlocks hl).1 u j = false := by
  obtain ⟨h1, h2⟩ := strIndexOf_some hfind
  refine ⟨?_, h1, h2⟩
  rw [applyGo_single_hunk hhdr (all_not_boundary_elim hbody)]
  simp only [applyHunk, hfind]

/-- Witness for C3 (amended): hunk `-b` `+Y` on `b\nX\nb` applies at the
first occurrence, index 0. -/
theorem claim_C3_witness :
    strIndexOf (ofString ("b\nX\nb"))
      (hunkBlocks [ofString ("-b"), ofString ("+Y")]).1 = some 0
    ∧ applyGo [ofString ("@@ ... @@"), ofString ("-b"), ofString ("+Y")]
        none (ofString ("b\nX\nb")) = .ok (ofString ("Y\nX\nb")) := by
  refine ⟨by decide, ?_⟩
  have h := @claim_C3 (ofString ("@@ ... @@"))
    [ofString ("-b"), ofString ("+Y")] (ofString ("b\nX\nb")) 0
    (by decide) (by decide) (by decide)
  rw [h.1]
  decide

theorem saveRollback_files (np : Str → Str) (now : Nat) (st : SysState)
    (path reason : Str) :
    (saveRollback np now st path reason).files = st.files := by
  unfold saveRollback
  cases h : st.files (np path) with
  | none => simp [h]
  | some c => simp [h]

/-- C7: a hunk whose search block is absent from the current working buffer
fails the whole loop with a hunk-apply error naming the missing block, and
when `applyDiff` fails the handler reports an error and the stored file
contents are unchanged. -/
theorem claim_C7 {np : Str → Str} {now : Nat} {st : SysState}
    {path udiff content : Str} {e : DiffError}
    (hfile : st.files (np path) = some content)
    (herr : applyDiff (np path) udiff content = .error e) :
    (diffEditTool np now st path udiff).2.files = st.files
    ∧ (diffEditTool np now st path udiff).1.1 = true
    ∧ ∀ (hl rest : List Str) (u : Str),
        (∀ l ∈ hl, isBoundary l = false) →
        (∀ r, rest.head? = some r → isBoundary r = true) →
        strIndexOf u (hunkBlocks hl).1 = none →
        applyGo (hl ++ rest) (some []) u
          = .error (.hunkApply (hunkBlocks hl).1) := by
  refine ⟨?_, ?_, ?_⟩
  · unfold diffEditTool
    simp only [hfile, herr]
    exact saveRollback_files np now st (np path) (ofString ("diff-edit-file"))
  · unfold diffEditTool
    simp only [hfile, herr]
  · intro hl rest u hbody hrest hnone
    rw [applyGo_consume rest [] u hbody, List.append_nil]
    have happ : applyHunk hl.reverse.reverse u
        = .error (.hunkApply (hunkBlocks hl).1) := by
      rw [List.reverse_reverse]
      simp only [applyHunk, hnone]
    cases rest with
    | nil =>
      rw [applyGo_nil_some]
      exact happ
    | cons r rs =>
      rw [applyGo, if_pos (by simp [hrest r rfl])]
      simp only [happ]

/-- Witness for C7: a missing search block `zz` in content `xyz` leaves the
file map unchanged, reports an error, and names the block. -/
theorem claim_C7_witness :
    (diffEditTool (fun s => s) 0
      ⟨fun q => if q = ofString ("f") then some (ofString ("xyz")) else none,
       fun _ => none⟩
      (ofString ("f")) (ofString ("--- f\n+++ f\n@@ ... @@\n-zz"))).1.1 = true
    ∧ (diffEditTool (fun s => s) 0
        ⟨fun q => if q = ofString ("f") then some (ofString ("xyz")) else none,
         fun _ => none⟩
        (ofString ("f")) (ofString ("--- f\n+++ f\n@@ ... @@\n-zz"))).2.files
          (ofString ("f"))
      = some (ofString ("xyz"))
    ∧ applyGo ([ofString ("-zz")] ++ []) (some []) (ofString ("xyz"))
      = .error (.hunkApply (hunkBlocks [ofString ("-zz")]).1) := by
  have h := @claim_C7 (fun s => s) 0
    ⟨fun q => if q = ofString ("f") then some (ofString ("xyz")) else none,
     fun _ => none⟩
    (ofString ("f")) (ofString ("--- f\n+++ f\n@@ ... @@\n-zz"))
    (ofString ("xyz")) (.hunkApply (ofString ("zz")))
    (by decide) (by decide)
  refine ⟨h.2.1, ?_, ?_⟩
  · rw [h.1]
    decide
  · exact h.2.2 [ofString ("-zz")] [] (ofString ("xyz"))
      (by decide) (by intro r hr; simp at hr) (by decide)

/-- C8: after a successful diff-edit on path `P` (which snapshots the
pre-mutation content), a restore succeeds and puts the exact pre-mutation
content back, and a second consecutive restore fails with the
no-rollback-available message, leaving the state untouched. -/
theorem claim_C8 {np : Str → Str} {now : Nat} {st : SysState}
    {P udiff C U D : Str}
    (hidem : np (np P) = np P)
    (hfile : st.files (np P) = some C)
    (hok : applyDiff (np P) udiff C = .ok (U, D)) :
    (diffEditTool np now st P udiff).1 = (false, D)
    ∧ (diffEditTool np now st P udiff).2.files (np P) = some U
    ∧ (restoreRollback np (diffEditTool np now st P udiff).2 P).1.1 = true
    ∧ (restoreRollback np (diffEditTool np now st P udiff).2 P).2.files (np P)
        = some C
    ∧ restoreRollback np
        (restoreRollback np (diffEditTool np now st P udiff).2 P).2 P
      = ((false, ofString ("No rollback available for this file.")),
         (restoreRollback np (diffEditTool np now st P udiff).2 P).2) := by
  have hsaveStore :
      (saveRollback np now st (np P) (ofString ("diff-edit-file"))).store
        = upd st.store (np P) (some ⟨C, now, ofString ("diff-edit-file")⟩) := by
    unfold saveRollback
    simp only [hidem, hfile]
  have htool : diffEditTool np now st P udiff
      = ((false, D),
         { files := upd st.files (np P) (some U),
           store := upd st.store (np P)
             (some ⟨C, now, ofString ("diff-edit-file")⟩) }) := by
    unfold diffEditTool
    simp only [hfile, hok, saveRollback_files, hsaveStore]
  have hfilesU : upd st.files (np P) (some U) (np P) = some U := by
    unfold upd
    rw [if_pos rfl]
  have hstoreE : upd st.store (np P)
      (some ⟨C, now, ofString ("diff-edit-file")⟩) (np P)
      = some ⟨C, now, ofString ("diff-edit-file")⟩ := by
    unfold upd
    rw [if_pos rfl]
  have hrest1 : restoreRollback np
      ({ files := upd st.files (np P) (some U),
         store := upd st.store (np P)
           (some ⟨C, now, ofString ("diff-edit-file")⟩) } : SysState) P
      = ((true, rollbackOkMsg ⟨C, now, ofString ("diff-edit-file")⟩),
         { files := upd (upd st.files (np P) (some U)) (np P) (some C),
           store := upd (upd st.store (np P)
             (some ⟨C, now, ofString ("diff-edit-file")⟩)) (np P) none }) := by
    unfold restoreRollback
    simp only [hstoreE, hfilesU]
  have hfilesC : upd (upd st.files (np P) (some U)) (np P) (some C) (np P)
      = some C := by
    unfold upd
    rw [if_pos rfl]
  have hstoreN : upd (upd st.store (np P)
      (some ⟨C, now, ofString ("diff-edit-file")⟩)) (np P) none (np P)
      = none := by
    unfold upd
    rw [if_pos rfl]
  have hrest2 : restoreRollback np
      ({ files := upd (upd st.files (np P) (some U)) (np P) (some C),
         store := upd (upd st.store (np P)
           (some ⟨C, now, ofString ("diff-edit-file")⟩)) (np P) none }
         : SysState) P
      = ((false, ofString ("No rollback available for this file.")),
         { files := upd (upd st.files (np P) (some U)) (np P) (some C),
           store := upd (upd st.store (np P)
             (some ⟨C, now, ofString ("diff-edit-file")⟩)) (np P) none }) := by
    unfold restoreRollback
    simp only [hstoreN]
  rw [htool]
  refine ⟨rfl, hfilesU, ?_, ?_, ?_⟩
  · rw [hrest1]
  · rw [hrest1]
    exact hfilesC
  · rw [hrest1, hrest2]

/-- Witness for C8: a concrete edit replacing `b` with `c` in `a\nb`,
followed by two restores. -/
theorem claim_C8_witness :
    (diffEditTool (fun s => s) 7
      ⟨fun q => if q = ofString ("f") then some (ofString ("a\nb")) else none,
       fun _ => none⟩
      (ofString ("f")) (ofString ("--- f\n+++ f\n@@ ... @@\n-b\n+c"))).1
      = (false, ofString ("--- f\n+++ f\n@@ ... @@\n a\n-b\n+c"))
    ∧ (diffEditTool (fun s => s) 7
        ⟨fun q => if q = ofString ("f") then some (ofString ("a\nb")) else none,
         fun _ => none⟩
        (ofString ("f"))
        (ofString ("--- f\n+++ f\n@@ ... @@\n-b\n+c"))).2.files (ofString ("f"))
      = some (ofString ("a\nc"))
    ∧ (restoreRollback (fun s => s)
        (diffEditTool (fun s => s) 7
          ⟨fun q => if q = ofString ("f") then some (ofString ("a\nb")) else none,
           fun _ => none⟩
          (ofString ("f")) (ofString ("--- f\n+++ f\n@@ ... @@\n-b\n+c"))).2
        (ofString ("f"))).1.1 = true
    ∧ (restoreRollback (fun s => s)
        (diffEditTool (fun s => s) 7
          ⟨fun q => if q = ofString ("f") then some (ofString ("a\nb")) else none,
           fun _ => none⟩
          (ofString ("f")) (ofString ("--- f\n+++ f\n@@ ... @@\n-b\n+c"))).2
        (ofString ("f"))).2.files (ofString ("f"))
      = some (ofString ("a\nb"))
    ∧ restoreRollback (fun s => s)
        (restoreRollback (fun s => s)
          (diffEditTool (fun s => s) 7
            ⟨fun q => if q = ofString ("f") then some (ofString ("a\nb")) else none,
             fun _ => none⟩
            (ofString ("f")) (ofString ("--- f\n+++ f\n@@ ... @@\n-b\n+c"))).2
          (ofString ("f"))).2 (ofString ("f"))
      = ((false, ofString ("No rollback available for this file.")),
         (restoreRollback (fun s => s)
          (diffEditTool (fun s => s) 7
            ⟨fun q => if q = ofString ("f") then some (ofString ("a\nb")) else none,
             fun _ => none⟩
            (ofString ("f")) (ofString ("--- f\n+++ f\n@@ ... @@\n-b\n+c"))).2
          (ofString ("f"))).2) :=
  @claim_C8 (fun s => s) 7
    ⟨fun q => if q = ofString ("f") then some (ofString ("a\nb")) else none,
     fun _ => none⟩
    (ofString ("f")) (ofString ("--- f\n+++ f\n@@ ... @@\n-b\n+c"))
    (ofString ("a\nb")) (ofString ("a\nc"))
    (ofString ("--- f\n+++ f\n@@ ... @@\n a\n-b\n+c"))
    rfl (by decide) (by decide)

/-- C9: when a rollback entry exists but the path does not resolve to a
file, restore fails and leaves both the rollback store and the file map
untouched; the entry is only deleted on the success path, after the saved
content has been written back. -/
theorem claim_C9 {np : Str → Str} {st : SysState} {P : Str}
    {e : RollbackEntry}
    (hstore : st.store (np P) = some e)
    (hfile : st.files (np P) = none) :
    restoreRollback np st P
      = ((false, ofString ("File not found for rollback.")), st) := by
  unfold restoreRollback
  simp only [hstore, hfile]

/-- Witness for C9: an entry for `f` with no resolvable file. -/
theorem claim_C9_witness :
    restoreRollback (fun s => s)
      ⟨fun _ => none,
       fun q => if q = ofString ("f")
         then some ⟨ofString ("old"), 5, ofString ("r")⟩ else none⟩
      (ofString ("f"))
      = ((false, ofString ("File not found for rollback.")),
         ⟨fun _ => none,
          fun q => if q = ofString ("f")
            then some ⟨ofString ("old"), 5, ofString ("r")⟩ else none⟩) :=
  @claim_C9 (fun s => s)
    ⟨fun _ => none,
     fun q => if q = ofString ("f")
       then some ⟨ofString ("old"), 5, ofString ("r")⟩ else none⟩
    (ofString ("f")) ⟨ofString ("old"), 5, ofString ("r")⟩
    (by decide) rfl

/-- C4: the header-path normalization `p.replace(/^([ab]\/)*/, "")` strips
every leading `a/` or `b/` segment, not exactly one — the starred group
contradicts the source's own comment "Only remove one leading a/ or b/
prefix".  Old path `a/b/x` and new path `b/x` both normalize to `x`, so the
pair the claim says must fail with a path mismatch is accepted and the diff
applies. -/
theorem claim_C4_code_bug :
    stripAB (ofString ("a/b/x")) = ofString ("x")
    ∧ stripAB (ofString ("b/x")) = ofString ("x")
    ∧ applyDiff (ofString ("x")) (ofString ("--- a/b/x\n+++ b/x")) []
      = .ok ([], ofString ("--- x\n+++ x\n")) := by decide

/-- C1 counterexample: inserting `b` at the front of content `--a` (via a
hunk with empty search block) succeeds, and the emitted net diff necessarily
contains the removed-line rendering `---a` of the original line `--a`; fed
back, that body line triggers the second-`---`-header check and the whole
re-application is rejected as a multi-file diff instead of reproducing the
final buffer. -/
theorem claim_C1_counterexample :
    applyDiff (ofString ("f")) (ofString ("--- f\n+++ f\n@@ ... @@\n+b"))
      (ofString ("--a"))
      = .ok (ofString ("b--a"),
          ofString ("--- f\n+++ f\n@@ ... @@\n---a\n+b--a"))
    ∧ applyDiff (ofString ("f"))
        (ofString ("--- f\n+++ f\n@@ ... @@\n---a\n+b--a")) (ofString ("--a"))
      = .error .multiFile := by decide

theorem commonPre_decomp (a b : List Str) :
    a = (commonPre a b).1 ++ (commonPre a b).2.1
    ∧ b = (commonPre a b).1 ++ (commonPre a b).2.2 := by
  induction a generalizing b with
  | nil =>
    cases b <;> simp [commonPre]
  | cons x xs ih =>
    cases b with
    | nil => simp [commonPre]
    | cons y ys =>
      rw [commonPre]
      by_cases hxy : x = y
      · rw [if_pos hxy]
        obtain ⟨h1, h2⟩ := ih ys
        constructor
        · conv_lhs => rw [h1]
          simp
        · conv_lhs => rw [h2]
          simp [hxy]
      · rw [if_neg hxy]
        simp

theorem commonSufSplit_decomp (a b : List Str) :
    a = (commonSufSplit a b).1 ++ (commonSufSplit a b).2.2
    ∧ b = (commonSufSplit a b).2.1 ++ (commonSufSplit a b).2.2 := by
  unfold commonSufSplit
  obtain ⟨h1, h2⟩ := commonPre_decomp a.reverse b.reverse
  constructor
  · conv_lhs => rw [← List.reverse_reverse a, h1]
    simp
  · conv_lhs => rw [← List.reverse_reverse b, h2]
    simp

theorem applyDiff_ok_emitted {p ud O U D : Str}
    (h : applyDiff p ud O = .ok (U, D)) :
    applyDiffCore p ud O = .ok U ∧ D = diffHeaders p ++ createPatch p O U := by
  unfold applyDiff at h
  cases hc : applyDiffCore p ud O with
  | error e =>
    rw [hc] at h
    cases h
  | ok u =>
    rw [hc] at h
    simp only [Except.map] at h
    injection h with h
    injection h with h1 h2
    subst h1
    exact ⟨rfl, h2.symm⟩

theorem splitNL_diffHeaders {p : Str} (body : Str) (hp : '\n' ∉ p) :
    splitNL (diffHeaders p ++ body)
      = (ofString ("--- ") ++ p) :: (ofString ("+++ ") ++ p)
          :: splitNL body := by
  have h1 : '\n' ∉ ofString ("--- ") ++ p := by
    intro hm
    rcases List.mem_append.mp hm with h | h
    · simp [ofString] at h
    · exact hp h
  have h2 : '\n' ∉ ofString ("+++ ") ++ p := by
    intro hm
    rcases List.mem_append.mp hm with h | h
    · simp [ofString] at h
    · exact hp h
  have hshape : diffHeaders p ++ body
      = (ofString ("--- ") ++ p)
        ++ '\n' :: ((ofString ("+++ ") ++ p) ++ '\n' :: body) := by
    simp [diffHeaders]
  rw [hshape, splitNL_append_cons _ h1, splitNL_append_cons _ h2]

/-- The rendered hunk body of the modelled emitter. -/
def rendLines (pre o2 u2 suf : List Str) : List Str :=
  pre.map (fun l => ' ' :: l) ++ o2.map (fun l => '-' :: l)
    ++ u2.map (fun l => '+' :: l) ++ suf.map (fun l => ' ' :: l)

theorem classifyLines_rend (pre o2 u2 suf : List Str) :
    classifyLines (rendLines pre o2 u2 suf)
      = (pre ++ o2 ++ suf, pre ++ u2 ++ suf) := by
  unfold rendLines
  rw [classifyLines_append, classifyLines_append, classifyLines_append,
    classifyLines_ctx, classifyLines_rem, classifyLines_add,
    classifyLines_ctx]
  simp

theorem rend_getLast_suf {suf : List Str} (pre o2 u2 : List Str)
    (h : suf ≠ []) :
    (rendLines pre o2 u2 suf).getLast?
      = (suf.map (fun l => ' ' :: l)).getLast? := by
  have hm : suf.map (fun l => ' ' :: l) ≠ [] := by
    simpa [List.map_eq_nil_iff] using h
  unfold rendLines
  rw [List.append_assoc, List.append_assoc,
    List.getLast?_append_of_ne_nil _ (by simp [List.append_eq_nil, hm]),
    List.getLast?_append_of_ne_nil _ (by simp [List.append_eq_nil, hm]),
    List.getLast?_append_of_ne_nil _ hm]

theorem rend_getLast_u2 {u2 : List Str} (pre o2 : List Str)
    (h : u2 ≠ []) :
    (rendLines pre o2 u2 []).getLast?
      = (u2.map (fun l => '+' :: l)).getLast? := by
  have hm : u2.map (fun l => '+' :: l) ≠ [] := by
    simpa [List.map_eq_nil_iff] using h
  unfold rendLines
  simp only [List.map_nil, List.append_nil]
  rw [List.append_assoc,
    List.getLast?_append_of_ne_nil _ (by simp [List.append_eq_nil, hm]),
    List.getLast?_append_of_ne_nil _ hm]

theorem rend_getLast_o2 {o2 : List Str} (pre : List Str)
    (h : o2 ≠ []) :
    (rendLines pre o2 [] []).getLast?
      = (o2.map (fun l => '-' :: l)).getLast? := by
  have hm : o2.map (fun l => '-' :: l) ≠ [] := by
    simpa [List.map_eq_nil_iff] using h
  unfold rendLines
  simp only [List.map_nil, List.append_nil]
  rw [List.getLast?_append_of_ne_nil _ hm]

theorem getLast?_map_eq {α β : Type} (f : α → β) (l : List α) {x : α}
    (h : l.getLast? = some x) : (l.map f).getLast? = some (f x) := by
  rw [List.getLast?_map, h]
  rfl

theorem trailingNL_rend_true {pre o2 u2 suf : List Str}
    (h : suf.getLast? = some []) :
    trailingNL (rendLines pre o2 u2 suf) = true := by
  have hsuf : suf ≠ [] := by
    intro hz
    rw [hz] at h
    cases h
  unfold trailingNL
  rw [rend_getLast_suf pre o2 u2 hsuf, getLast?_map_eq _ _ h]
  rfl

theorem trailingNL_rend_false {pre o2 u2 suf : List Str}
    (hsuf : suf.getLast? ≠ some [])
    (hne : ¬(o2 = [] ∧ u2 = [])) :
    trailingNL (rendLines pre o2 u2 suf) = false := by
  unfold trailingNL
  cases hs : suf with
  | cons s0 srest =>
    have hsne : suf ≠ [] := by rw [hs]; simp
    rw [← hs, rend_getLast_suf pre o2 u2 hsne]
    cases hlast : suf.getLast? with
    | none =>
      rw [List.getLast?_eq_none_iff] at hlast
      exact absurd hlast hsne
    | some x =>
      rw [getLast?_map_eq _ _ hlast]
      cases x with
      | nil => exact absurd hlast hsuf
      | cons c cs => rfl
  | nil =>
    subst hs
    cases hu : u2 with
    | cons y ys =>
      have hune : u2 ≠ [] := by rw [hu]; simp
      rw [← hu, rend_getLast_u2 pre o2 hune]
      cases hlast : u2.getLast? with
      | none =>
        rw [List.getLast?_eq_none_iff] at hlast
        exact absurd hlast hune
      | some y0 =>
        rw [getLast?_map_eq _ _ hlast]
        rfl
    | nil =>
      subst hu
      have hone : o2 ≠ [] := by
        intro hz
        exact hne ⟨hz, rfl⟩
      rw [rend_getLast_o2 pre hone]
      cases hlast : o2.getLast? with
      | none =>
        rw [List.getLast?_eq_none_iff] at hlast
        exact absurd hlast hone
      | some y0 =>
        rw [getLast?_map_eq _ _ hlast]
        rfl

theorem createPatch_eq (p O U : Str) :
    createPatch p O U
      = (if (commonSufSplit (commonPre (dSplitLines O) (dSplitLines U)).2.1
              (commonPre (dSplitLines O) (dSplitLines U)).2.2).1 = []
           ∧ (commonSufSplit (commonPre (dSplitLines O) (dSplitLines U)).2.1
              (commonPre (dSplitLines O) (dSplitLines U)).2.2).2.1 = []
         then []
         else joinNL (ofString ("@@ ... @@") ::
           rendLines (commonPre (dSplitLines O) (dSplitLines U)).1
             (commonSufSplit (commonPre (dSplitLines O) (dSplitLines U)).2.1
               (commonPre (dSplitLines O) (dSplitLines U)).2.2).1
             (commonSufSplit (commonPre (dSplitLines O) (dSplitLines U)).2.1
               (commonPre (dSplitLines O) (dSplitLines U)).2.2).2.1
             (commonSufSplit (commonPre (dSplitLines O) (dSplitLines U)).2.1
               (commonPre (dSplitLines O) (dSplitLines U)).2.2).2.2)) := rfl

theorem no_nl_cons {c : Char} {x : Str} (hc : c ≠ '\n') (hx : '\n' ∉ x) :
    '\n' ∉ c :: x := by
  intro hm
  rcases List.mem_cons.mp hm with h | h
  · exact hc h.symm
  · exact hx h

theorem rend_no_nl {pre o2 u2 suf : List Str} {l : Str}
    (hpre : ∀ x ∈ pre, '\n' ∉ x) (ho2 : ∀ x ∈ o2, '\n' ∉ x)
    (hu2 : ∀ x ∈ u2, '\n' ∉ x) (hsuf : ∀ x ∈ suf, '\n' ∉ x)
    (hmem : l ∈ rendLines pre o2 u2 suf) : '\n' ∉ l := by
  unfold rendLines at hmem
  simp only [List.mem_append, List.mem_map] at hmem
  rcases hmem with ((⟨x, hx, he⟩ | ⟨x, hx, he⟩) | ⟨x, hx, he⟩) | ⟨x, hx, he⟩
  · exact he ▸ no_nl_cons (by decide) (hpre x hx)
  · exact he ▸ no_nl_cons (by decide) (ho2 x hx)
  · exact he ▸ no_nl_cons (by decide) (hu2 x hx)
  · exact he ▸ no_nl_cons (by decide) (hsuf x hx)

theorem rend_not_boundary {pre o2 u2 suf : List Str} {l : Str}
    (hmem : l ∈ rendLines pre o2 u2 suf)
    (hdash : (ofString ("---")).isPrefixOf l = false) :
    isBoundary l = false := by
  unfold rendLines at hmem
  simp only [List.mem_append, List.mem_map] at hmem
  rcases hmem with ((⟨x, hx, he⟩ | ⟨x, hx, he⟩) | ⟨x, hx, he⟩) | ⟨x, hx, he⟩
  · exact he ▸ isBoundary_space x
  · rw [← he] at hdash
    rw [← he, isBoundary_dash]
    exact hdash
  · exact he ▸ isBoundary_plus x
  · exact he ▸ isBoundary_space x

theorem mem_dSplit_of_decomp {s : Str} {a b : List Str}
    (hdec : dSplitLines s = a ++ b) :
    (∀ x ∈ a, '\n' ∉ x) ∧ (∀ x ∈ b, '\n' ∉ x) := by
  constructor
  · intro x hx
    exact mem_dSplitLines_no_nl (s := s)
      (hdec ▸ List.mem_append_left _ hx)
  · intro x hx
    exact mem_dSplitLines_no_nl (s := s)
      (hdec ▸ List.mem_append_right _ hx)

theorem roundTrip_core {p O U : Str}
    (hpnl : '\n' ∉ p)
    (hpws : dropWS p = p)
    (hcrO : '\r' ∉ O)
    (htail : tailNL O = tailNL U)
    (hfence : stripFences (diffHeaders p ++ createPatch p O U)
        = diffHeaders p ++ createPatch p O U)
    (hcrD : normalizeCRLF (diffHeaders p ++ createPatch p O U)
        = diffHeaders p ++ createPatch p O U)
    (hbody : ((splitNL (diffHeaders p ++ createPatch p O U)).drop 2).all
        (fun l => !((ofString ("---")).isPrefixOf l)) = true) :
    applyDiffCore p (diffHeaders p ++ createPatch p O U) O = .ok U := by
  obtain ⟨hO1, hU1⟩ := commonPre_decomp (dSplitLines O) (dSplitLines U)
  obtain ⟨hO2, hU2⟩ := commonSufSplit_decomp
    (commonPre (dSplitLines O) (dSplitLines U)).2.1
    (commonPre (dSplitLines O) (dSplitLines U)).2.2
  set P1 := commonPre (dSplitLines O) (dSplitLines U) with hP1def
  set R := commonSufSplit P1.2.1 P1.2.2 with hRdef
  have hOsplit : dSplitLines O = P1.1 ++ R.1 ++ R.2.2 := by
    rw [List.append_assoc, ← hO2]
    exact hO1
  have hUsplit : dSplitLines U = P1.1 ++ R.2.1 ++ R.2.2 := by
    rw [List.append_assoc, ← hU2]
    exact hU1
  have hOrec := dSplitLines_reconstruct O
  have hUrec := dSplitLines_reconstruct U
  by_cases hdec : R.1 = [] ∧ R.2.1 = []
  · have hcp : createPatch p O U = [] := by
      rw [createPatch_eq, ← hP1def, ← hRdef, if_pos hdec]
    have hOU : O = U := by
      have hsl : dSplitLines O = dSplitLines U := by
        rw [hOsplit, hUsplit, hdec.1, hdec.2]
      rw [← hOrec, ← hUrec, hsl, htail]
    rw [hcp, List.append_nil] at hfence hcrD ⊢
    have hsplit : splitLinesRN (stripFences (diffHeaders p))
        = (ofString ("--- ") ++ p) :: (ofString ("+++ ") ++ p) :: [[]] := by
      rw [hfence]
      unfold splitLinesRN
      rw [hcrD]
      have hs := splitNL_diffHeaders [] hpnl
      rw [List.append_nil] at hs
      rw [hs]
      rfl
    rw [applyDiffCore_parse O hsplit hpws (by decide),
      normalizeCRLF_of_no_cr hcrO, applyGo_blanks _ (by decide), hOU]
  · have hcp : createPatch p O U
        = joinNL (ofString ("@@ ... @@")
            :: rendLines P1.1 R.1 R.2.1 R.2.2) := by
      rw [createPatch_eq, ← hP1def, ← hRdef, if_neg hdec]
    have hOmem := mem_dSplit_of_decomp hOsplit
    have hUmem := mem_dSplit_of_decomp hUsplit
    have hpreN : ∀ x ∈ P1.1, '\n' ∉ x := fun x hx =>
      hOmem.1 x (List.mem_append_left _ hx)
    have ho2N : ∀ x ∈ R.1, '\n' ∉ x := fun x hx =>
      hOmem.1 x (List.mem_append_right _ hx)
    have hu2N : ∀ x ∈ R.2.1, '\n' ∉ x := fun x hx =>
      hUmem.1 x (List.mem_append_right _ hx)
    have hsufN : ∀ x ∈ R.2.2, '\n' ∉ x := hOmem.2
    have hrendN : ∀ l ∈ ofString ("@@ ... @@")
        :: rendLines P1.1 R.1 R.2.1 R.2.2, '\n' ∉ l := by
      intro l hl
      rcases List.mem_cons.mp hl with h | h
      · subst h
        decide
      · exact rend_no_nl hpreN ho2N hu2N hsufN h
    have hsplitBody : splitNL (createPatch p O U)
        = ofString ("@@ ... @@") :: rendLines P1.1 R.1 R.2.1 R.2.2 := by
      rw [hcp]
      exact splitNL_joinNL hrendN (by simp)
    have hsplitD : splitNL (diffHeaders p ++ createPatch p O U)
        = (ofString ("--- ") ++ p) :: (ofString ("+++ ") ++ p)
          :: ofString ("@@ ... @@") :: rendLines P1.1 R.1 R.2.1 R.2.2 := by
      rw [splitNL_diffHeaders _ hpnl, hsplitBody]
    have hsplit : splitLinesRN
        (stripFences (diffHeaders p ++ createPatch p O U))
        = (ofString ("--- ") ++ p) :: (ofString ("+++ ") ++ p)
          :: ofString ("@@ ... @@") :: rendLines P1.1 R.1 R.2.1 R.2.2 := by
      rw [hfence]
      unfold splitLinesRN
      rw [hcrD, hsplitD]
    have hbody2 : (ofString ("@@ ... @@")
        :: rendLines P1.1 R.1 R.2.1 R.2.2).all
        (fun l => !((ofString ("---")).isPrefixOf l)) = true := by
      have hb := hbody
      rw [hsplitD] at hb
      simpa using hb
    rw [applyDiffCore_parse O hsplit hpws hbody2,
      normalizeCRLF_of_no_cr hcrO]
    have hboundary : ∀ l ∈ rendLines P1.1 R.1 R.2.1 R.2.2,
        isBoundary l = false := by
      intro l hl
      apply rend_not_boundary hl
      have hall := List.all_eq_true.mp hbody2 l (List.mem_cons_of_mem _ hl)
      simpa using hall
    rw [applyGo_single_hunk (by decide) hboundary]
    by_cases hT : R.2.2.getLast? = some []
    · have htr : trailingNL (rendLines P1.1 R.1 R.2.1 R.2.2) = true :=
        trailingNL_rend_true hT
      have hTne : R.2.2 ≠ [] := by
        intro hz
        rw [hz] at hT
        cases hT
      have hOlast : (dSplitLines O).getLast? = some [] := by
        rw [hOsplit, List.append_assoc, List.getLast?_append_of_ne_nil _
          (by simp [List.append_eq_nil, hTne]),
          List.getLast?_append_of_ne_nil _ hTne]
        exact hT
      have hUlast : (dSplitLines U).getLast? = some [] := by
        rw [hUsplit, List.append_assoc, List.getLast?_append_of_ne_nil _
          (by simp [List.append_eq_nil, hTne]),
          List.getLast?_append_of_ne_nil _ hTne]
        exact hT
      have hOt : tailNL O = ['\n'] := by
        unfold tailNL
        rw [if_pos (dSplitLines_getLast_nil hOlast)]
      have hUt : tailNL U = ['\n'] := by
        unfold tailNL
        rw [if_pos (dSplitLines_getLast_nil hUlast)]
      have hOeq : joinNL (dSplitLines O) ++ ['\n'] = O := by
        rw [← hOt]
        exact hOrec
      have hUeq : joinNL (dSplitLines U) ++ ['\n'] = U := by
        rw [← hUt]
        exact hUrec
      have hblocks : hunkBlocks (rendLines P1.1 R.1 R.2.1 R.2.2) = (O, U) := by
        unfold hunkBlocks
        rw [htr, if_pos rfl, classifyLines_rend]
        rw [← hOsplit, ← hUsplit, hOeq, hUeq]
      simp only [applyHunk, hblocks]
      rw [strIndexOf_isPrefixOf
        (List.isPrefixOf_iff_prefix.mpr (List.prefix_refl O))]
      simp
    · have htr : trailingNL (rendLines P1.1 R.1 R.2.1 R.2.2) = false :=
        trailingNL_rend_false hT hdec
      have hblocks : hunkBlocks (rendLines P1.1 R.1 R.2.1 R.2.2)
          = (joinNL (dSplitLines O), joinNL (dSplitLines U)) := by
        unfold hunkBlocks
        rw [htr, if_neg (by simp), classifyLines_rend,
          ← hOsplit, ← hUsplit]
      have hpreB : (joinNL (dSplitLines O)).isPrefixOf O = true := by
        rw [List.isPrefixOf_iff_prefix]
        exact ⟨tailNL O, hOrec⟩
      simp only [applyHunk, hblocks]
      rw [strIndexOf_isPrefixOf hpreB]
      show Except.ok (O.take 0 ++ joinNL (dSplitLines U)
        ++ O.drop (0 + (joinNL (dSplitLines O)).length)) = Except.ok U
      have hdropgen : ∀ (j t : Str), j ++ t = O →
          O.drop (0 + j.length) = t := by
        intro j t hjt
        rw [Nat.zero_add, ← hjt, List.drop_left]
      rw [hdropgen _ _ hOrec, htail]
      simp only [List.take_zero, List.nil_append]
      rw [hUrec]

/-- C1 (amended): when `applyDiff` succeeds with final content `U` and
emitted diff `D`, feeding `D` back through `applyDiff` against the same
original content reproduces `U` (and re-emits the same `D`), provided the
emitted diff survives the feed-back parse unmangled: the path has no
newline and no leading whitespace, the original content has no carriage
returns, original and final content agree on a trailing newline, `D` is a
fixed point of fence stripping and CRLF normalization, and no body line of
`D` begins with `---` (see the counterexample for the last condition). -/
theorem claim_C1 {p ud O U D : Str}
    (hrun : applyDiff p ud O = .ok (U, D))
    (hpnl : '\n' ∉ p)
    (hpws : dropWS p = p)
    (hcrO : '\r' ∉ O)
    (htail : tailNL O = tailNL U)
    (hfence : stripFences D = D)
    (hcrD : normalizeCRLF D = D)
    (hbody : ((splitNL D).drop 2).all
        (fun l => !((ofString ("---")).isPrefixOf l)) = true) :
    applyDiff p D O = .ok (U, D) := by
  obtain ⟨hcore, hD⟩ := applyDiff_ok_emitted hrun
  subst hD
  unfold applyDiff
  rw [roundTrip_core hpnl hpws hcrO htail hfence hcrD hbody]
  rfl

/-- Witness for C1: replacing `b` by `c` in `a\nb` emits
`--- f\n+++ f\n@@ ... @@\n a\n-b\n+c`, and feeding that diff back through
`applyDiff` reproduces `a\nc` and the same diff. -/
theorem claim_C1_witness :
    applyDiff (ofString ("f")) (ofString ("--- f\n+++ f\n@@ ... @@\n-b\n+c"))
      (ofString ("a\nb"))
      = .ok (ofString ("a\nc"),
          ofString ("--- f\n+++ f\n@@ ... @@\n a\n-b\n+c"))
    ∧ applyDiff (ofString ("f"))
        (ofString ("--- f\n+++ f\n@@ ... @@\n a\n-b\n+c")) (ofString ("a\nb"))
      = .ok (ofString ("a\nc"),
          ofString ("--- f\n+++ f\n@@ ... @@\n a\n-b\n+c")) :=
  ⟨by decide,
   @claim_C1 (ofString ("f")) (ofString ("--- f\n+++ f\n@@ ... @@\n-b\n+c"))
     (ofString ("a\nb")) (ofString ("a\nc"))
     (ofString ("--- f\n+++ f\n@@ ... @@\n a\n-b\n+c"))
     (by decide) (by decide) (by decide) (by decide) (by decide) (by decide)
     (by decide) (by decide)⟩
